import Mathlib

/-!
A shallow embedding of the `hive_path` package: a path abstraction for
Hive-style partitioned paths, where path segments encode `key=value` pairs.

The repository ships the package `hive_path` (re-exporting the class
`HivePath` from `hive_path/hive_path.py`) together with its test suite
`tests/test_hive_path.py`.  The module `hive_path/hive_path.py` that holds
the `HivePath` class itself is not present in the sources; the partition
semantics below are therefore modelled from the specification (spec.md,
sections 3, 4 and 7), and the test suite is used to corroborate the model
on concrete inputs.

Modelling decisions:
* A path segment is its character sequence (`Seg := List Char`).
* A `HivePath` is the ordered sequence of its segments, mirroring
  `pathlib.PurePath.parts` (for an absolute path the first part is `"/"`).
* The partitions mapping is an insertion-ordered association list built the
  way a Python `dict` is built by assigning `d[key] = value` while scanning
  segments left to right: assigning to an existing key replaces its value in
  place, a new key is appended at the end (last assignment wins on lookup).
-/

namespace HiveSpec

/-- A path segment, represented by its sequence of characters. -/
abbrev Seg := List Char

/-- Modelled from the spec: splitting a segment at its FIRST `=` character.
`findEq s = some (k, v)` when `s = k ++ '=' :: v` and `k` holds no `=`;
`none` when `s` holds no `=` at all.  (The class `HivePath` in
`hive_path/hive_path.py` is missing from the sources; spec.md section 3
fixes "key = substring before the first `=`; value = substring after the
first `=`".) -/
def findEq : Seg → Option (Seg × Seg)
  | [] => none
  | c :: cs =>
    if c = '=' then some ([], cs)
    else
      match findEq cs with
      | none => none
      | some kv => some (c :: kv.1, kv.2)

/-- Modelled from the spec: a segment is a partition segment iff it holds at
least one `=` and the part before the first `=` (the key) is non-empty;
`splitSeg` returns the key/value pair of a partition segment, `none` for a
non-partition segment (spec.md section 3, invariants). -/
def splitSeg (s : Seg) : Option (Seg × Seg) :=
  match findEq s with
  | none => none
  | some kv => if kv.1 = [] then none else some kv

/-- Whether a segment is a partition segment. -/
def isPartitionSeg (s : Seg) : Bool :=
  (splitSeg s).isSome

/-- The path data model: the ordered sequence of path segments, as exposed by
the hierarchical-path collaborator's `parts`. -/
structure HivePath where
  parts : List Seg
  deriving DecidableEq, Repr

/-- Split a raw character sequence at `/` separators (the pieces between
consecutive separators, empty pieces included). -/
def splitSlash : List Char → List Seg
  | [] => [[]]
  | c :: cs =>
    if c = '/' then [] :: splitSlash cs
    else
      match splitSlash cs with
      | [] => [[c]]
      | seg :: rest => (c :: seg) :: rest

/-- Drop the empty and `"."` pieces, as `pathlib` normalisation does. -/
def dropEmptyDot (l : List Seg) : List Seg :=
  l.filter fun seg => !(seg == []) && !(seg == ['.'])

/-- Parse a raw path string into its `parts`, mirroring
`pathlib.PurePosixPath`: split at `/`, drop empty and `"."` pieces, and for
an absolute path prepend the root part `"/"`.  The empty string parses to no
parts (the current directory). -/
def parseParts (l : List Char) : List Seg :=
  let segs := dropEmptyDot (splitSlash l)
  if l.head? = some '/' then ['/'] :: segs else segs

/-- Construct a `HivePath` from one path string. -/
def HivePath.ofString (s : String) : HivePath :=
  ⟨parseParts s.toList⟩

/-- Modelled from the spec: variadic construction `HivePath(*segments)`
forwards the arguments to the path constructor as a path join; no argument
at all yields the empty/current-directory path (spec.md section 4.1,
`create`).  Joining is modelled as concatenating the parsed parts of the
arguments. -/
def HivePath.create (args : List String) : HivePath :=
  ⟨(args.map fun s => parseParts s.toList).flatten⟩

/-- The key/value pairs of the partition segments, in segment order. -/
def partitionPairs (p : HivePath) : List (Seg × Seg) :=
  p.parts.filterMap splitSeg

/-- One Python `dict` assignment `d[k] = v` on an insertion-ordered
association list: replace the value in place when the key is present,
append the new pair otherwise. -/
def dictInsert (m : List (Seg × Seg)) (kv : Seg × Seg) : List (Seg × Seg) :=
  if m.any fun q => decide (q.1 = kv.1) then
    m.map fun q => if q.1 = kv.1 then kv else q
  else
    m ++ [kv]

/-- `dict` lookup on the association list (keys are unique by construction,
so the first hit is the entry). -/
def dictFind (m : List (Seg × Seg)) (k : Seg) : Option Seg :=
  (m.find? fun q => decide (q.1 = k)).map Prod.snd

/-- Modelled from the spec: the `partitions` property — scan the segments
left to right and assign `d[key] = value` for every partition segment, later
segments overriding earlier ones (spec.md section 3, invariants). -/
def HivePath.partitions (p : HivePath) : List (Seg × Seg) :=
  (partitionPairs p).foldl dictInsert []

/-- Modelled from the spec: `get_partition(key)` returns the value for `key`
if present, else an absent result, never raising (spec.md section 4.1). -/
def HivePath.get_partition (p : HivePath) (k : Seg) : Option Seg :=
  dictFind p.partitions k

/-- Modelled from the spec: `has_partition(key)` without a value argument —
true iff `key` is present in `partitions` (spec.md section 4.1). -/
def HivePath.has_partition (p : HivePath) (k : Seg) : Bool :=
  (p.get_partition k).isSome

/-- Modelled from the spec: `has_partition(key, value)` with a value —
additionally requires the stored value to equal it exactly (spec.md
section 4.1). -/
def HivePath.has_partition_value (p : HivePath) (k v : Seg) : Bool :=
  p.get_partition k == some v

/-- Modelled from the spec: `base_path()` keeps the subsequence of segments
that are NOT partition segments, in original relative order (spec.md
section 4.1). -/
def HivePath.base_path (p : HivePath) : HivePath :=
  ⟨p.parts.filter fun s => !isPartitionSeg s⟩

/-- Modelled from the spec: `partition_path()` keeps the subsequence of
segments that ARE partition segments, in original relative order (spec.md
section 4.1). -/
def HivePath.partition_path (p : HivePath) : HivePath :=
  ⟨p.parts.filter isPartitionSeg⟩

/-- Modelled from the spec: `add_partition(key, value)` returns a new path
equal to the original with one additional trailing segment `key=value`
appended; no prior segment is removed (spec.md section 4.1). -/
def HivePath.add_partition (p : HivePath) (k v : Seg) : HivePath :=
  ⟨p.parts ++ [k ++ '=' :: v]⟩

/-- Format one partition entry as the segment `key=value`. -/
def fmtKV (kv : Seg × Seg) : Seg :=
  kv.1 ++ '=' :: kv.2

/-- Ordering of partition entries by non-strict lexicographic comparison of
their keys. -/
def keyLE (a b : Seg × Seg) : Prop :=
  a.1 ≤ b.1

/-- Strict ascending ordering of partition entries by their keys. -/
def keyLT (a b : Seg × Seg) : Prop :=
  a.1 < b.1

instance : DecidableRel keyLE := fun a b =>
  inferInstanceAs (Decidable (a.1 ≤ b.1))

instance : IsTrans (Seg × Seg) keyLE :=
  ⟨fun _ _ _ h1 h2 => le_trans h1 h2⟩

instance : IsTotal (Seg × Seg) keyLE :=
  ⟨fun a b => le_total a.1 b.1⟩

instance : IsAntisymm (Seg × Seg) keyLT :=
  ⟨fun _ _ h1 h2 => absurd h2 (lt_asymm h1)⟩

/-- Modelled from the spec: `with_partitions(base, mapping)` joins `base`
with one segment `key=value` per entry of the mapping, the segments ordered
by ascending lexicographic sort of the keys (spec.md section 4.1).  The
mapping is passed as its insertion-ordered entry list. -/
def HivePath.with_partitions (base : HivePath) (m : List (Seg × Seg)) : HivePath :=
  ⟨base.parts ++ (List.insertionSort keyLE m).map fmtKV⟩

/-- The value the scan assigns to key `k`: the value of the last pair for
`k` in the pair list (`none` when no pair has key `k`). -/
def lastVal (pairs : List (Seg × Seg)) (k : Seg) : Option Seg :=
  dictFind pairs.reverse k

/-- `orElseO a b` is `a` when present, else `b`. -/
def orElseO (a b : Option Seg) : Option Seg :=
  match a with
  | some v => some v
  | none => b

/-! ### Lemmas about segment splitting -/

lemma findEq_append (k v : Seg) (he : '=' ∉ k) :
    findEq (k ++ '=' :: v) = some (k, v) := by
  induction k with
  | nil => simp [findEq]
  | cons c cs ih =>
    simp only [List.mem_cons, not_or] at he
    have hc : ¬ c = '=' := fun h => he.1 h.symm
    simp [findEq, hc, ih he.2]

lemma splitSeg_append (k v : Seg) (hk : k ≠ []) (he : '=' ∉ k) :
    splitSeg (k ++ '=' :: v) = some (k, v) := by
  simp [splitSeg, findEq_append k v he, hk]

lemma findEq_eq_some (s k v : Seg) (h : findEq s = some (k, v)) :
    s = k ++ '=' :: v ∧ '=' ∉ k := by
  induction s generalizing k v with
  | nil => simp [findEq] at h
  | cons c cs ih =>
    by_cases hc : c = '='
    · subst hc
      have hfe : findEq ('=' :: cs) = some ([], cs) := by simp [findEq]
      rw [hfe] at h
      obtain ⟨hk, hv⟩ : ([] : Seg) = k ∧ cs = v := by simpa using h
      subst hk; subst hv
      simp
    · simp only [findEq, if_neg hc] at h
      cases hfe : findEq cs with
      | none => rw [hfe] at h; simp at h
      | some kv =>
        rw [hfe] at h
        simp only [Option.some.injEq, Prod.mk.injEq] at h
        obtain ⟨hk, hv⟩ := h
        obtain ⟨hcs, hne⟩ := ih kv.1 kv.2 (by rw [hfe])
        subst hk; subst hv
        constructor
        · rw [List.cons_append, ← hcs]
        · simp only [List.mem_cons, not_or]
          exact ⟨fun hh => hc hh.symm, hne⟩

lemma splitSeg_eq_some (s k v : Seg) (h : splitSeg s = some (k, v)) :
    s = k ++ '=' :: v ∧ k ≠ [] ∧ '=' ∉ k := by
  unfold splitSeg at h
  cases hfe : findEq s with
  | none => rw [hfe] at h; simp at h
  | some kv =>
    rw [hfe] at h
    have h' : (if kv.1 = [] then (none : Option (Seg × Seg)) else some kv) = some (k, v) := h
    by_cases hk : kv.1 = []
    · rw [if_pos hk] at h'; simp at h'
    · rw [if_neg hk] at h'
      have hkv : kv = (k, v) := by simpa using h'
      obtain ⟨hs, hne⟩ := findEq_eq_some s kv.1 kv.2 (by rw [hfe])
      rw [hkv] at hs hne hk
      exact ⟨hs, hk, hne⟩

/-! ### Lemmas about the association-list dictionary -/

lemma dictFind_nil (k : Seg) : dictFind [] k = none := rfl

lemma dictFind_cons (q : Seg × Seg) (m : List (Seg × Seg)) (k : Seg) :
    dictFind (q :: m) k = if q.1 = k then some q.2 else dictFind m k := by
  by_cases h : q.1 = k
  · rw [if_pos h]
    unfold dictFind
    rw [List.find?_cons_of_pos _ (by simpa using h)]
    rfl
  · rw [if_neg h]
    unfold dictFind
    rw [List.find?_cons_of_neg _ (by simpa using h)]

lemma dictFind_append (m m' : List (Seg × Seg)) (k : Seg) :
    dictFind (m ++ m') k = orElseO (dictFind m k) (dictFind m' k) := by
  unfold dictFind
  rw [List.find?_append]
  cases List.find? (fun q => decide (q.1 = k)) m with
  | none => simp [orElseO, Option.or]
  | some q => simp [orElseO, Option.or]

lemma dictFind_eq_none (m : List (Seg × Seg)) (k : Seg) (h : ∀ q ∈ m, q.1 ≠ k) :
    dictFind m k = none := by
  induction m with
  | nil => rfl
  | cons q rest ih =>
    rw [dictFind_cons, if_neg (h q (List.mem_cons_self q rest))]
    exact ih fun q' hq' => h q' (List.mem_cons_of_mem q hq')

lemma dictFind_single (kv : Seg × Seg) (k : Seg) :
    dictFind [kv] k = if kv.1 = k then some kv.2 else none := by
  rw [dictFind_cons]
  rfl

lemma dictFind_replace (m : List (Seg × Seg)) (kv : Seg × Seg) (k : Seg) :
    dictFind (m.map fun q => if q.1 = kv.1 then kv else q) k =
      if kv.1 = k then
        (if (m.any fun q => decide (q.1 = kv.1)) = true then some kv.2 else none)
      else dictFind m k := by
  induction m with
  | nil => simp [dictFind]
  | cons q rest ih =>
    simp only [List.map_cons, List.any_cons]
    by_cases hq : q.1 = kv.1
    · by_cases hk : kv.1 = k
      · have hqk : q.1 = k := by rw [hq, hk]
        simp [if_pos hq, dictFind_cons, hqk, hq, hk, ih]
      · have hqk : ¬ q.1 = k := fun hh => hk (by rw [← hq, hh])
        simp [if_pos hq, dictFind_cons, hqk, hq, hk, ih]
    · have hb : decide (q.1 = kv.1) = false := by simpa using hq
      by_cases hqk : q.1 = k
      · have hkk : ¬ kv.1 = k := fun hh => hq (by rw [hqk, hh])
        have hkq : ¬ k = kv.1 := fun hh => hkk hh.symm
        simp [if_neg hq, dictFind_cons, hqk, hkk, hkq]
      · simp only [if_neg hq, dictFind_cons, if_neg hqk, ih, hb, Bool.false_or]

lemma dictFind_dictInsert (m : List (Seg × Seg)) (kv : Seg × Seg) (k : Seg) :
    dictFind (dictInsert m kv) k = if kv.1 = k then some kv.2 else dictFind m k := by
  unfold dictInsert
  by_cases hany : (m.any fun q => decide (q.1 = kv.1)) = true
  · rw [if_pos hany, dictFind_replace, hany]
    by_cases hk : kv.1 = k <;> simp [hk]
  · rw [if_neg hany, dictFind_append, dictFind_single]
    have hnone : dictFind m kv.1 = none := by
      apply dictFind_eq_none
      intro q hq hqk
      exact hany (List.any_eq_true.2 ⟨q, hq, by simpa using hqk⟩)
    by_cases hk : kv.1 = k
    · subst hk
      rw [hnone]
      simp [orElseO]
    · rw [if_neg hk, if_neg hk]
      cases dictFind m k <;> rfl

/-! ### The scan that builds the partitions mapping -/

lemma lastVal_nil (k : Seg) : lastVal [] k = none := rfl

lemma lastVal_cons (kv : Seg × Seg) (rest : List (Seg × Seg)) (k : Seg) :
    lastVal (kv :: rest) k =
      orElseO (lastVal rest k) (if kv.1 = k then some kv.2 else none) := by
  unfold lastVal
  rw [List.reverse_cons, dictFind_append, dictFind_single]

lemma lastVal_append (a b : List (Seg × Seg)) (k : Seg) :
    lastVal (a ++ b) k = orElseO (lastVal b k) (lastVal a k) := by
  unfold lastVal
  rw [List.reverse_append, dictFind_append]

lemma lastVal_eq_none (pairs : List (Seg × Seg)) (k : Seg)
    (h : ∀ q ∈ pairs, q.1 ≠ k) : lastVal pairs k = none := by
  unfold lastVal
  exact dictFind_eq_none _ _ fun q hq => h q (List.mem_reverse.1 hq)

lemma lastVal_single (kv : Seg × Seg) (k : Seg) :
    lastVal [kv] k = if kv.1 = k then some kv.2 else none := by
  unfold lastVal
  rw [List.reverse_singleton, dictFind_single]

lemma dictFind_foldl (pairs : List (Seg × Seg)) (d : List (Seg × Seg)) (k : Seg) :
    dictFind (pairs.foldl dictInsert d) k = orElseO (lastVal pairs k) (dictFind d k) := by
  induction pairs generalizing d with
  | nil =>
    rw [List.foldl_nil, lastVal_nil]
    rfl
  | cons kv rest ih =>
    rw [List.foldl_cons, ih, lastVal_cons, dictFind_dictInsert]
    cases lastVal rest k with
    | some v => rfl
    | none =>
      by_cases hk : kv.1 = k
      · simp [hk, orElseO]
      · simp [hk, orElseO]

lemma get_partition_eq_lastVal (p : HivePath) (k : Seg) :
    p.get_partition k = lastVal (partitionPairs p) k := by
  show dictFind p.partitions k = _
  unfold HivePath.partitions
  rw [dictFind_foldl, dictFind_nil]
  cases lastVal (partitionPairs p) k <;> rfl

lemma mem_dictInsert (m : List (Seg × Seg)) (kv q : Seg × Seg)
    (h : q ∈ dictInsert m kv) : q ∈ m ∨ q = kv := by
  unfold dictInsert at h
  split at h
  · obtain ⟨q', hq', hmap⟩ := List.mem_map.1 h
    by_cases h' : q'.1 = kv.1
    · right; rw [if_pos h'] at hmap; exact hmap.symm
    · left; rw [if_neg h'] at hmap; exact hmap ▸ hq'
  · rcases List.mem_append.1 h with h1 | h1
    · left; exact h1
    · right; simpa using h1

lemma mem_foldl_dictInsert (pairs d : List (Seg × Seg)) (q : Seg × Seg)
    (h : q ∈ pairs.foldl dictInsert d) : q ∈ d ∨ q ∈ pairs := by
  induction pairs generalizing d with
  | nil => left; exact h
  | cons kv rest ih =>
    rw [List.foldl_cons] at h
    rcases ih (dictInsert d kv) h with h1 | h1
    · rcases mem_dictInsert d kv q h1 with h2 | h2
      · left; exact h2
      · right; exact h2 ▸ List.mem_cons_self kv rest
    · right; exact List.mem_cons_of_mem kv h1

lemma mem_partitions (p : HivePath) (q : Seg × Seg) (h : q ∈ p.partitions) :
    q ∈ partitionPairs p := by
  rcases mem_foldl_dictInsert (partitionPairs p) [] q h with h1 | h1
  · cases h1
  · exact h1

lemma partitions_key_ne_nil (p : HivePath) (q : Seg × Seg)
    (h : q ∈ p.partitions) : q.1 ≠ [] := by
  obtain ⟨s, _, hsp⟩ := List.mem_filterMap.1 (mem_partitions p q h)
  exact (splitSeg_eq_some s q.1 q.2 hsp).2.1

lemma filterMap_no_key (post : List Seg) (k : Seg)
    (hpost : ∀ s ∈ post, (splitSeg s).map Prod.fst ≠ some k) :
    ∀ q ∈ post.filterMap splitSeg, q.1 ≠ k := by
  intro q hq hk1
  obtain ⟨s, hs, hsp⟩ := List.mem_filterMap.1 hq
  apply hpost s hs
  rw [hsp]
  simpa using hk1

lemma filterMap_single (k v : Seg) (hk : k ≠ []) (he : '=' ∉ k) :
    List.filterMap splitSeg [k ++ '=' :: v] = [(k, v)] := by
  rw [List.filterMap_cons, splitSeg_append k v hk he]
  rfl

/-! ### The claims -/

/-- C1: in every path holding a partition segment `k=v` whose key `k` is a
valid key (non-empty, no `=`) and that is not overridden by a later segment
with the same key, the partitions mapping assigns `k` the entire substring
after the FIRST `=`, any further `=` characters preserved verbatim in the
value (the value `v` is arbitrary and may itself contain `=`). -/
theorem hive_C1 (pre post : List Seg) (k v : Seg)
    (hk : k ≠ []) (he : '=' ∉ k)
    (hpost : ∀ s ∈ post, (splitSeg s).map Prod.fst ≠ some k) :
    HivePath.get_partition ⟨pre ++ [k ++ '=' :: v] ++ post⟩ k = some v := by
  rw [get_partition_eq_lastVal]
  have hpairs : partitionPairs ⟨pre ++ [k ++ '=' :: v] ++ post⟩ =
      (pre.filterMap splitSeg ++ [(k, v)]) ++ post.filterMap splitSeg := by
    show (pre ++ [k ++ '=' :: v] ++ post).filterMap splitSeg = _
    rw [List.filterMap_append, List.filterMap_append, filterMap_single k v hk he]
  rw [hpairs, lastVal_append, lastVal_append, lastVal_single,
    lastVal_eq_none (post.filterMap splitSeg) k (filterMap_no_key post k hpost)]
  simp [orElseO]

/-- C1 witness: `get_partition "key"` on
`"data/key=value=with=equals/file.txt"` returns `"value=with=equals"`. -/
theorem hive_C1_witness :
    ("key".toList ≠ ([] : Seg)) ∧ ('=' ∉ "key".toList) ∧
    (HivePath.ofString "data/key=value=with=equals/file.txt").get_partition
      "key".toList = some "value=with=equals".toList := by
  refine ⟨by decide, by decide, ?_⟩
  have hpath : HivePath.ofString "data/key=value=with=equals/file.txt" =
      ⟨["data".toList] ++ ["key".toList ++ '=' :: "value=with=equals".toList] ++
        ["file.txt".toList]⟩ := by decide
  rw [hpath]
  exact hive_C1 ["data".toList] ["file.txt".toList] "key".toList
    "value=with=equals".toList (by decide) (by decide) (by decide)

/-- C3: when two partition segments share the same valid key `k` and no later
segment redefines `k`, the partitions mapping holds the value of the LAST
such segment in left-to-right order (and the lookup is total: no error). -/
theorem hive_C3 (pre mid post : List Seg) (k v w : Seg)
    (hk : k ≠ []) (he : '=' ∉ k)
    (hpost : ∀ s ∈ post, (splitSeg s).map Prod.fst ≠ some k) :
    HivePath.get_partition
      ⟨pre ++ [k ++ '=' :: v] ++ mid ++ [k ++ '=' :: w] ++ post⟩ k = some w := by
  rw [get_partition_eq_lastVal]
  have hpairs : partitionPairs
      ⟨pre ++ [k ++ '=' :: v] ++ mid ++ [k ++ '=' :: w] ++ post⟩ =
      (((pre.filterMap splitSeg ++ [(k, v)]) ++ mid.filterMap splitSeg) ++
        [(k, w)]) ++ post.filterMap splitSeg := by
    show (pre ++ [k ++ '=' :: v] ++ mid ++ [k ++ '=' :: w] ++ post).filterMap
        splitSeg = _
    rw [List.filterMap_append, List.filterMap_append, List.filterMap_append,
      List.filterMap_append, filterMap_single k v hk he,
      filterMap_single k w hk he]
  rw [hpairs, lastVal_append, lastVal_append, lastVal_single,
    lastVal_eq_none (post.filterMap splitSeg) k (filterMap_no_key post k hpost)]
  simp [orElseO]

/-- C3 witness: `get_partition "year"` on `"data/year=2023/year=2024/file.txt"`
returns `"2024"`, the value of the last `year=` segment. -/
theorem hive_C3_witness :
    ("year".toList ≠ ([] : Seg)) ∧ ('=' ∉ "year".toList) ∧
    (HivePath.ofString "data/year=2023/year=2024/file.txt").get_partition
      "year".toList = some "2024".toList := by
  refine ⟨by decide, by decide, ?_⟩
  have hpath : HivePath.ofString "data/year=2023/year=2024/file.txt" =
      ⟨["data".toList] ++ ["year".toList ++ '=' :: "2023".toList] ++ [] ++
        ["year".toList ++ '=' :: "2024".toList] ++ ["file.txt".toList]⟩ := by
    decide
  rw [hpath]
  exact hive_C3 ["data".toList] [] ["file.txt".toList] "year".toList
    "2023".toList "2024".toList (by decide) (by decide) (by decide)

/-- C5 counterexample: the claim quantifies over ALL strings `k`, `v`, but for
the empty key `k = ""` the appended segment `"=v"` is not a partition segment,
so `get_partition ""` is absent rather than `some v`. -/
theorem hive_C5_cex :
    ((HivePath.ofString "data").add_partition [] "x".toList).get_partition []
      ≠ some "x".toList := by decide

/-- C5 (amended): for every path `P` and strings `k`, `v` with `k` a valid
partition key (non-empty and holding no `=`), `add_partition P k v` is `P`
with exactly one additional trailing segment `k=v` appended (no prior segment
removed), and on the result `get_partition k` yields `v`, whether or not `k`
was present in `P` before. -/
theorem hive_C5 (p : HivePath) (k v : Seg) (hk : k ≠ []) (he : '=' ∉ k) :
    (p.add_partition k v).parts = p.parts ++ [k ++ '=' :: v] ∧
    (p.add_partition k v).get_partition k = some v := by
  refine ⟨rfl, ?_⟩
  rw [get_partition_eq_lastVal]
  have hpairs : partitionPairs (p.add_partition k v) =
      partitionPairs p ++ [(k, v)] := by
    show (p.parts ++ [k ++ '=' :: v]).filterMap splitSeg = _
    rw [List.filterMap_append, filterMap_single k v hk he]
    rfl
  rw [hpairs, lastVal_append, lastVal_single]
  simp [orElseO]

/-- C5 witness: adding `year=2024` to `"data/year=2023"` appends one segment
and overwrites the logical view: `get_partition "year"` yields `"2024"`. -/
theorem hive_C5_witness :
    ("year".toList ≠ ([] : Seg)) ∧ ('=' ∉ "year".toList) ∧
    ((HivePath.ofString "data/year=2023").add_partition "year".toList
        "2024".toList).parts =
      (HivePath.ofString "data/year=2023").parts ++
        ["year".toList ++ '=' :: "2024".toList] ∧
    ((HivePath.ofString "data/year=2023").add_partition "year".toList
        "2024".toList).get_partition "year".toList = some "2024".toList := by
  refine ⟨by decide, by decide, ?_, ?_⟩
  · exact (hive_C5 (HivePath.ofString "data/year=2023") "year".toList
      "2024".toList (by decide) (by decide)).1
  · exact (hive_C5 (HivePath.ofString "data/year=2023") "year".toList
      "2024".toList (by decide) (by decide)).2

/-- C6: for every path and every key absent from its partitions mapping,
`get_partition` returns the absent result and `has_partition` returns false;
both are total functions (they never raise). -/
theorem hive_C6 (p : HivePath) (k : Seg)
    (h : ∀ q ∈ p.partitions, q.1 ≠ k) :
    p.get_partition k = none ∧ p.has_partition k = false := by
  have h1 : p.get_partition k = none := dictFind_eq_none _ _ h
  exact ⟨h1, by simp [HivePath.has_partition, h1]⟩

/-- C6 witness: `"month"` is absent from `"data/year=2023/file.txt"`:
`get_partition` is absent and `has_partition` is false. -/
theorem hive_C6_witness :
    (∀ q ∈ (HivePath.ofString "data/year=2023/file.txt").partitions,
      q.1 ≠ "month".toList) ∧
    (HivePath.ofString "data/year=2023/file.txt").get_partition
      "month".toList = none ∧
    (HivePath.ofString "data/year=2023/file.txt").has_partition
      "month".toList = false := by
  refine ⟨by decide, ?_, ?_⟩
  · exact (hive_C6 (HivePath.ofString "data/year=2023/file.txt")
      "month".toList (by decide)).1
  · exact (hive_C6 (HivePath.ofString "data/year=2023/file.txt")
      "month".toList (by decide)).2

/-- C7: a segment whose first `=` has an empty left side (leading `=`) is a
non-partition segment: it is kept among the segments of `base_path`, it is
not among the segments of `partition_path`, and no entry of the partitions
mapping has an empty key. -/
theorem hive_C7 (p : HivePath) (rest : Seg) (h : ('=' :: rest) ∈ p.parts) :
    splitSeg ('=' :: rest) = none ∧
    ('=' :: rest) ∈ p.base_path.parts ∧
    ('=' :: rest) ∉ p.partition_path.parts ∧
    ∀ q ∈ p.partitions, q.1 ≠ [] := by
  have hsplit : splitSeg ('=' :: rest) = none := by simp [splitSeg, findEq]
  refine ⟨hsplit, ?_, ?_, fun q hq => partitions_key_ne_nil p q hq⟩
  · show ('=' :: rest) ∈ p.parts.filter fun s => !isPartitionSeg s
    rw [List.mem_filter]
    exact ⟨h, by simp [isPartitionSeg, hsplit]⟩
  · show ('=' :: rest) ∉ p.parts.filter isPartitionSeg
    rw [List.mem_filter]
    simp [isPartitionSeg, hsplit]

/-- C7 witness: the segment `"=foo"` of `"data/=foo/file.txt"` is classified
as a non-partition segment and survives in `base_path`. -/
theorem hive_C7_witness :
    (('=' :: "foo".toList) ∈ (HivePath.ofString "data/=foo/file.txt").parts) ∧
    ('=' :: "foo".toList) ∈
      (HivePath.ofString "data/=foo/file.txt").base_path.parts ∧
    ('=' :: "foo".toList) ∉
      (HivePath.ofString "data/=foo/file.txt").partition_path.parts := by
  refine ⟨by decide, ?_, ?_⟩
  · exact (hive_C7 (HivePath.ofString "data/=foo/file.txt") "foo".toList
      (by decide)).2.1
  · exact (hive_C7 (HivePath.ofString "data/=foo/file.txt") "foo".toList
      (by decide)).2.2.1

/-- C4: the segments of `base_path` and of `partition_path` are subsequences
of the original segment sequence that classify every original segment into
exactly one of the two, and merging them back recovers the original
sequence (as a permutation assembled from the two order-preserving
subsequences). -/
theorem hive_C4 (p : HivePath) :
    p.base_path.parts.Sublist p.parts ∧
    p.partition_path.parts.Sublist p.parts ∧
    (p.base_path.parts ++ p.partition_path.parts).Perm p.parts ∧
    ∀ s ∈ p.parts, (s ∈ p.base_path.parts ↔ s ∉ p.partition_path.parts) := by
  refine ⟨List.filter_sublist _, List.filter_sublist _, ?_, ?_⟩
  · have h : ((p.parts.filter isPartitionSeg) ++
        (p.parts.filter fun x => !isPartitionSeg x)).Perm p.parts :=
      List.filter_append_perm isPartitionSeg p.parts
    exact List.perm_append_comm.trans h
  · intro s hs
    show s ∈ p.parts.filter (fun x => !isPartitionSeg x) ↔
      ¬ s ∈ p.parts.filter isPartitionSeg
    rw [List.mem_filter, List.mem_filter]
    by_cases hf : isPartitionSeg s <;> simp [hs, hf]

/-- C4 witness: on `"data/year=2023/month=01/file.txt"`, the segments of
`base_path` followed by those of `partition_path` are a permutation of the
original segments. -/
theorem hive_C4_witness :
    ((HivePath.ofString "data/year=2023/month=01/file.txt").base_path.parts ++
      (HivePath.ofString
        "data/year=2023/month=01/file.txt").partition_path.parts).Perm
      (HivePath.ofString "data/year=2023/month=01/file.txt").parts :=
  (hive_C4 (HivePath.ofString "data/year=2023/month=01/file.txt")).2.2.1

/-- C2: `with_partitions base m` is `base` joined with one `key=value`
segment per entry of the mapping, the segments in ascending lexicographic
key order, and the result does not depend on the iteration order of the
mapping (any permutation `m'` of the entries yields the same path). -/
theorem hive_C2 (base : HivePath) (m m' : List (Seg × Seg))
    (hperm : m.Perm m') (hnd : (m.map Prod.fst).Nodup) :
    base.with_partitions m = base.with_partitions m' ∧
    ∃ ms : List (Seg × Seg), ms.Perm m ∧ List.Pairwise keyLT ms ∧
      (base.with_partitions m).parts = base.parts ++ ms.map fmtKV := by
  have sorted_strict : ∀ l : List (Seg × Seg), (l.map Prod.fst).Nodup →
      List.Pairwise keyLT (List.insertionSort keyLE l) := by
    intro l hl
    have hp : (List.insertionSort keyLE l).Perm l :=
      List.perm_insertionSort keyLE l
    have hnd' : ((List.insertionSort keyLE l).map Prod.fst).Nodup :=
      ((hp.map Prod.fst).nodup_iff).2 hl
    have hs : List.Pairwise keyLE (List.insertionSort keyLE l) :=
      List.sorted_insertionSort keyLE l
    have hne : List.Pairwise (fun a b : Seg × Seg => a.1 ≠ b.1)
        (List.insertionSort keyLE l) := List.pairwise_map.1 hnd'
    exact (hs.and hne).imp fun h => lt_of_le_of_ne h.1 h.2
  have hnd2 : (m'.map Prod.fst).Nodup := ((hperm.map Prod.fst).nodup_iff).1 hnd
  have h1 := sorted_strict m hnd
  have h2 := sorted_strict m' hnd2
  have hp12 : (List.insertionSort keyLE m).Perm (List.insertionSort keyLE m') :=
    ((List.perm_insertionSort keyLE m).trans hperm).trans
      (List.perm_insertionSort keyLE m').symm
  have heq : List.insertionSort keyLE m = List.insertionSort keyLE m' :=
    List.eq_of_perm_of_sorted hp12 h1 h2
  refine ⟨?_, List.insertionSort keyLE m, List.perm_insertionSort keyLE m,
    h1, rfl⟩
  unfold HivePath.with_partitions
  rw [heq]

/-- C2 witness: for base `"data"` and the mapping with entries `month:01`
and `year:2023` (in either insertion order), the result is the same path and
its segments place `month=01` before `year=2023`. -/
theorem hive_C2_witness :
    (([(("month".toList : Seg), ("01".toList : Seg)),
        ("year".toList, "2023".toList)] : List (Seg × Seg)).Perm
      [("year".toList, "2023".toList), ("month".toList, "01".toList)]) ∧
    ((([(("month".toList : Seg), ("01".toList : Seg)),
        ("year".toList, "2023".toList)] : List (Seg × Seg)).map
          Prod.fst).Nodup) ∧
    ((HivePath.ofString "data").with_partitions
        [("month".toList, "01".toList), ("year".toList, "2023".toList)] =
      (HivePath.ofString "data").with_partitions
        [("year".toList, "2023".toList), ("month".toList, "01".toList)]) ∧
    ((HivePath.ofString "data").with_partitions
        [("month".toList, "01".toList), ("year".toList, "2023".toList)]).parts =
      ["data".toList, "month".toList ++ '=' :: "01".toList,
        "year".toList ++ '=' :: "2023".toList] := by
  refine ⟨by decide, by decide, ?_, by decide⟩
  exact (hive_C2 (HivePath.ofString "data") _ _ (by decide) (by decide)).1

/-- C8 counterexample: the claim asserts an empty partitions mapping for
EVERY base; for the base `"data/year=2023"`, `with_partitions` with the
empty mapping returns the base itself, whose partitions mapping is not
empty. -/
theorem hive_C8_cex :
    ((HivePath.ofString "data/year=2023").with_partitions []).partitions
      ≠ [] := by decide

/-- C8 (amended): for every base path, `with_partitions base {}` with the
empty mapping yields a path equal (as a path) to `base`, and the result's
partitions mapping equals the partitions mapping of `base` (in particular it
is empty whenever `base` has no partition segments). -/
theorem hive_C8 (base : HivePath) :
    base.with_partitions [] = base ∧
    (base.with_partitions []).partitions = base.partitions := by
  have h : base.with_partitions [] = base := by
    cases base with
    | mk l =>
      show HivePath.mk (l ++ (List.insertionSort keyLE []).map fmtKV) =
        HivePath.mk l
      simp
  exact ⟨h, by rw [h]⟩

/-- C9: construction from no segments and from the empty string both yield
the empty/current-directory path (no segments) with an empty partitions
mapping, and the root path `"/"` also has an empty partitions mapping. -/
theorem hive_C9 :
    (HivePath.create []).parts = [] ∧ (HivePath.create []).partitions = [] ∧
    HivePath.create [] = HivePath.ofString "" ∧
    (HivePath.ofString "").parts = [] ∧
    (HivePath.ofString "").partitions = [] ∧
    (HivePath.ofString "/").partitions = [] := by decide

lemma splitSlash_slash (l : List Char) :
    splitSlash ('/' :: l) = [] :: splitSlash l := by
  simp [splitSlash]

lemma parseParts_slash (l : List Char) :
    parseParts ('/' :: l) = ['/'] :: dropEmptyDot (splitSlash l) := by
  simp [parseParts, splitSlash_slash, dropEmptyDot]

lemma splitSeg_root : splitSeg ['/'] = none := by
  simp [splitSeg, findEq]

/-- C10: prefixing a relative path string with the root `/` adds only the
root part, which is not a partition segment: the absolute and the relative
form have equal partitions mappings. -/
theorem hive_C10 (s : String) (hrel : s.toList.head? ≠ some '/') :
    (HivePath.ofString ("/" ++ s)).partitions =
      (HivePath.ofString s).partitions := by
  show (HivePath.mk (parseParts ("/" ++ s).toList)).partitions =
    (HivePath.mk (parseParts s.toList)).partitions
  have h1 : ("/" ++ s).toList = '/' :: s.toList := by
    show ("/" ++ s).data = '/' :: s.data
    rw [String.data_append]
    rfl
  have h2 : parseParts s.toList = dropEmptyDot (splitSlash s.toList) := by
    unfold parseParts
    rw [if_neg hrel]
  rw [h1, parseParts_slash, h2]
  show (List.filterMap splitSeg
      (['/'] :: dropEmptyDot (splitSlash s.toList))).foldl dictInsert [] =
    (List.filterMap splitSeg
      (dropEmptyDot (splitSlash s.toList))).foldl dictInsert []
  rw [List.filterMap_cons, splitSeg_root]

/-- C10 witness: `"data/year=2023/file.txt"` and
`"/data/year=2023/file.txt"` have equal partitions mappings. -/
theorem hive_C10_witness :
    (("data/year=2023/file.txt" : String).toList.head? ≠ some '/') ∧
    (HivePath.ofString ("/" ++ "data/year=2023/file.txt")).partitions =
      (HivePath.ofString "data/year=2023/file.txt").partitions := by
  refine ⟨by decide, ?_⟩
  exact hive_C10 "data/year=2023/file.txt" (by decide)

end HiveSpec
